import Mathlib

/-
Verification of the Med-AL-SSL harness (utils.py, data/cifar10_dataset.py).

Index pools (numpy arrays of dataset indices) are modelled as `List Nat`;
boolean-mask fancy indexing is modelled by filtering positions drawn from
`List.range`.  Floating-point ratios and similarity values are modelled by `ℚ`.
External randomness (numpy `default_rng`, the sklearn `train_test_split` shuffle)
is modelled by an explicit permutation parameter.
-/

namespace MedALSSL

/-- The elements of `unlabeled_indices` selected by torch fancy indexing
`unlabeled_indices[~unlabeled_mask]`, where `unlabeled_mask` starts as all-ones
and is zeroed at the positions in `samples_indices`
(utils.py lines 110-112): the entries whose position lies in `samples_indices`,
kept in position order. -/
def selectedOf (unlabeled_indices samples_indices : List Nat) : List Nat :=
  ((List.range unlabeled_indices.length).filter
      (fun p => decide (p ∈ samples_indices))).map
    (fun p => unlabeled_indices.getD p 0)

/-- The elements of `unlabeled_indices` kept by `unlabeled_indices[unlabeled_mask]`
(utils.py line 113): the entries whose position is not in `samples_indices`,
in position order. -/
def keptOf (unlabeled_indices samples_indices : List Nat) : List Nat :=
  ((List.range unlabeled_indices.length).filter
      (fun p => decide (p ∉ samples_indices))).map
    (fun p => unlabeled_indices.getD p 0)

/-- utils.py lines 109-115, `postprocess_indices`: build a boolean mask over the
positions of `unlabeled_indices`, zero it at `samples_indices`, append the
unmasked entries to `labeled_indices` (np.hstack) and keep the masked entries
as the new unlabeled pool. -/
def postprocess_indices (labeled_indices unlabeled_indices samples_indices : List Nat) :
    List Nat × List Nat :=
  (labeled_indices ++ selectedOf unlabeled_indices samples_indices,
   keptOf unlabeled_indices samples_indices)

/-- Reading every position of a list in order reproduces the list. -/
theorem map_getD_range {α : Type} (l : List α) (d : α) :
    (List.range l.length).map (fun p => l.getD p d) = l := by
  induction l with
  | nil => rfl
  | cons a t ih =>
    rw [List.length_cons, List.range_succ_eq_map, List.map_cons, List.map_map]
    have h2 : ((fun p => (a :: t).getD p d) ∘ Nat.succ) = fun p => t.getD p d := by
      funext p
      simp [List.getD]
    rw [h2, ih]
    simp [List.getD]

/-- The positions of `List.range n` lying in a duplicate-free list `S` of valid
positions are a permutation of `S`. -/
theorem filter_range_mem_perm (S : List Nat) (n : Nat) (hS : S.Nodup)
    (hSv : ∀ p ∈ S, p < n) :
    ((List.range n).filter (fun p => decide (p ∈ S))).Perm S := by
  refine (List.perm_ext_iff_of_nodup ((List.nodup_range n).filter _) hS).2 ?_
  intro a
  simp only [List.mem_filter, List.mem_range, decide_eq_true_eq]
  exact ⟨fun h => h.2, fun h => ⟨hSv a h, h⟩⟩

/-- The selected entries are a permutation of `S` mapped through `U`. -/
theorem selectedOf_perm (U S : List Nat) (hS : S.Nodup)
    (hSv : ∀ p ∈ S, p < U.length) :
    (selectedOf U S).Perm (S.map (fun p => U.getD p 0)) :=
  (filter_range_mem_perm S U.length hS hSv).map _

/-- The kept entries form a sublist of the unlabeled pool. -/
theorem keptOf_sublist (U S : List Nat) : (keptOf U S).Sublist U := by
  have h := (List.filter_sublist (p := fun p => decide (p ∉ S))
      (List.range U.length)).map (fun p => U.getD p 0)
  rwa [map_getD_range] at h

/-- Selected and kept entries together are a permutation of the unlabeled pool. -/
theorem selectedOf_append_keptOf_perm (U S : List Nat) :
    (selectedOf U S ++ keptOf U S).Perm U := by
  have h := (List.filter_append_perm (fun p => decide (p ∈ S))
      (List.range U.length)).map (fun p => U.getD p 0)
  rw [List.map_append, map_getD_range] at h
  have e : (fun a => !decide (a ∈ S)) = fun a => decide (a ∉ S) := by
    funext a
    simp [decide_not]
  rw [e] at h
  exact h

/-- Length of the selected entries. -/
theorem selectedOf_length (U S : List Nat) (hS : S.Nodup)
    (hSv : ∀ p ∈ S, p < U.length) :
    (selectedOf U S).length = S.length := by
  have := (selectedOf_perm U S hS hSv).length_eq
  simpa using this

/-- Length of the kept entries. -/
theorem keptOf_length (U S : List Nat) (hS : S.Nodup)
    (hSv : ∀ p ∈ S, p < U.length) :
    (keptOf U S).length = U.length - S.length := by
  have hperm := (selectedOf_append_keptOf_perm U S).length_eq
  rw [List.length_append, selectedOf_length U S hS hSv] at hperm
  omega

/-- C1: for pairwise-distinct valid positions `S` into `U`,
`postprocess_indices L U S` returns `L` with exactly the entries of `U` at the
positions in `S` appended, and `U` with exactly those positions removed with the
relative order of the remaining entries preserved; the lengths add up, the new
labeled pool having grown by exactly `S.length`. -/
theorem postprocess_indices_correct (L U S : List Nat) (hS : S.Nodup)
    (hSv : ∀ p ∈ S, p < U.length) :
    (postprocess_indices L U S).1.take L.length = L ∧
    ((postprocess_indices L U S).1.drop L.length).Perm
      (S.map (fun p => U.getD p 0)) ∧
    (postprocess_indices L U S).2.Sublist U ∧
    (((postprocess_indices L U S).1.drop L.length) ++
        (postprocess_indices L U S).2).Perm U ∧
    (postprocess_indices L U S).1.length + (postprocess_indices L U S).2.length
      = L.length + U.length ∧
    (postprocess_indices L U S).1.length = L.length + S.length := by
  refine ⟨?_, ?_, ?_, ?_, ?_, ?_⟩
  · simp [postprocess_indices]
  · rw [postprocess_indices, List.drop_left]
    exact selectedOf_perm U S hS hSv
  · exact keptOf_sublist U S
  · rw [postprocess_indices, List.drop_left]
    exact selectedOf_append_keptOf_perm U S
  · simp [postprocess_indices, selectedOf_length U S hS hSv,
      keptOf_length U S hS hSv]
    have := hSv
    have hle : S.length ≤ U.length := by
      have hp := (filter_range_mem_perm S U.length hS hSv).length_eq
      have hsub := (List.filter_sublist (p := fun p => decide (p ∈ S))
          (List.range U.length)).length_le
      rw [hp] at hsub
      simpa using hsub
    omega
  · simp [postprocess_indices, selectedOf_length U S hS hSv]

/-- Witness for `postprocess_indices_correct` at a concrete input. -/
theorem postprocess_indices_correct_witness :
    (postprocess_indices [9] [4, 5, 6] [2, 0]).1.take 1 = [9] ∧
    ((postprocess_indices [9] [4, 5, 6] [2, 0]).1.drop 1).Perm
      ([2, 0].map (fun p => [4, 5, 6].getD p 0)) ∧
    (postprocess_indices [9] [4, 5, 6] [2, 0]).2.Sublist [4, 5, 6] ∧
    (((postprocess_indices [9] [4, 5, 6] [2, 0]).1.drop 1) ++
        (postprocess_indices [9] [4, 5, 6] [2, 0]).2).Perm [4, 5, 6] ∧
    (postprocess_indices [9] [4, 5, 6] [2, 0]).1.length +
        (postprocess_indices [9] [4, 5, 6] [2, 0]).2.length = 1 + 3 ∧
    (postprocess_indices [9] [4, 5, 6] [2, 0]).1.length = 1 + 2 := by
  have h := postprocess_indices_correct [9] [4, 5, 6] [2, 0]
    (by decide) (by decide)
  simpa using h

/-- utils.py lines 102-106, `stratified_random_sampling`: draw `number`
pairwise-distinct positions into the unlabeled pool without replacement.
The numpy call `default_rng().choice(n, size=number, replace=False)` is modelled by an
explicit permutation `shuffle` of `List.range n` truncated to `number`; numpy
raises `ValueError` (modelled as `none`) when `number` exceeds the population. -/
def stratified_random_sampling (shuffle : List Nat → List Nat)
    (unlabeled_indices : List Nat) (number : Nat) : Option (List Nat) :=
  if number ≤ unlabeled_indices.length then
    some ((shuffle (List.range unlabeled_indices.length)).take number)
  else
    none

/-- utils.py lines 309-314: the pseudo-labeling loop in the `semi_supervised`
branch of `perform_sampling`.  For each selected pair `(j, t)` in order, if the
current target at position `j` already equals the predicted label `t` the
accuracy flag is 1, otherwise the target at `j` is overwritten with `t` and the
flag stays 0.  Returns the updated targets together with `pseudo_labels_acc`. -/
def pseudo_label_loop (targets : List Nat) :
    List (Nat × Nat) → List Nat × List Nat
  | [] => (targets, [])
  | (j, t) :: rest =>
    if targets.getD j 0 = t then
      let r := pseudo_label_loop targets rest
      (r.1, 1 :: r.2)
    else
      let r := pseudo_label_loop (targets.set j t) rest
      (r.1, 0 :: r.2)

/-- utils.py lines 282-339, `perform_sampling`, restricted to its index and
target bookkeeping.  `samples_indices` and `samples_targets` stand for the
output of the external uncertainty sampler or pseudo-labeler consumed by the
`active_learning` and `semi_supervised` branches; the default branch draws its
own sample via `stratified_random_sampling` with
`number = dataset_class.add_labeled_num`.  Returns the updated
`(labeled_indices, unlabeled_indices)` pair together with the (possibly
pseudo-labeled) `labeled_dataset.targets`. -/
def perform_sampling (weak_supervision_strategy : String)
    (shuffle : List Nat → List Nat) (number : Nat)
    (labeled_indices unlabeled_indices samples_indices : List Nat)
    (targets samples_targets : List Nat) :
    Option ((List Nat × List Nat) × List Nat) :=
  if weak_supervision_strategy = "active_learning" then
    some (postprocess_indices labeled_indices unlabeled_indices samples_indices,
      targets)
  else if weak_supervision_strategy = "semi_supervised" then
    some (postprocess_indices labeled_indices unlabeled_indices samples_indices,
      (pseudo_label_loop targets (samples_indices.zip samples_targets)).1)
  else
    match stratified_random_sampling shuffle unlabeled_indices number with
    | none => none
    | some s =>
      some (postprocess_indices labeled_indices unlabeled_indices s, targets)

/-- Every selected entry is an element of the unlabeled pool. -/
theorem selectedOf_subset (U S : List Nat) : ∀ x ∈ selectedOf U S, x ∈ U := by
  intro x hx
  rw [selectedOf] at hx
  obtain ⟨p, hp, rfl⟩ := List.mem_map.1 hx
  have hpn : p < U.length := List.mem_range.1 (List.mem_of_mem_filter hp)
  rw [List.getD_eq_getElem?_getD, List.getElem?_eq_getElem hpn]
  exact List.getElem_mem hpn

/-- Every kept entry is an element of the unlabeled pool. -/
theorem keptOf_subset (U S : List Nat) : ∀ x ∈ keptOf U S, x ∈ U :=
  fun _ hx => (keptOf_sublist U S).subset hx

/-- In a duplicate-free list, positional reads agree only at equal positions. -/
theorem getD_inj_of_nodup {U : List Nat} (hU : U.Nodup) {p q : Nat}
    (hp : p < U.length) (hq : q < U.length)
    (h : U.getD p 0 = U.getD q 0) : p = q := by
  have e1 : U.getD p 0 = U.get ⟨p, hp⟩ := by
    simp [List.getD_eq_getElem?_getD, List.getElem?_eq_getElem hp]
  have e2 : U.getD q 0 = U.get ⟨q, hq⟩ := by
    simp [List.getD_eq_getElem?_getD, List.getElem?_eq_getElem hq]
  have h3 : U.get ⟨p, hp⟩ = U.get ⟨q, hq⟩ := by rw [← e1, ← e2, h]
  exact congrArg Fin.val (hU.get_inj_iff.mp h3)

/-- When the unlabeled pool is duplicate-free, the selected and the kept
entries share no element. -/
theorem selectedOf_keptOf_disjoint (U S : List Nat) (hU : U.Nodup) :
    (selectedOf U S).Disjoint (keptOf U S) := by
  intro x hxs hxk
  rw [selectedOf] at hxs
  rw [keptOf] at hxk
  obtain ⟨p, hp, hxp⟩ := List.mem_map.1 hxs
  obtain ⟨q, hq, hxq⟩ := List.mem_map.1 hxk
  have hpm := List.mem_filter.1 hp
  have hqm := List.mem_filter.1 hq
  have hpn : p < U.length := List.mem_range.1 hpm.1
  have hqn : q < U.length := List.mem_range.1 hqm.1
  have hpS : p ∈ S := by simpa using hpm.2
  have hqS : q ∉ S := by simpa using hqm.2
  have hpq : p = q := getD_inj_of_nodup hU hpn hqn (by rw [hxp, hxq])
  exact hqS (hpq ▸ hpS)

/-- The index bookkeeping of one `postprocess_indices` call preserves the pool:
new labeled entries come from the unlabeled pool, disjointness is preserved
(for a duplicate-free unlabeled pool), and the multiset of indices is
unchanged. -/
theorem postprocess_indices_pool (L U S : List Nat) (hU : U.Nodup) :
    (∀ x ∈ (postprocess_indices L U S).1.drop L.length, x ∈ U) ∧
    (L.Disjoint U →
      (postprocess_indices L U S).1.Disjoint (postprocess_indices L U S).2) ∧
    ((postprocess_indices L U S).1 ++ (postprocess_indices L U S).2).Perm
      (L ++ U) := by
  refine ⟨?_, ?_, ?_⟩
  · rw [postprocess_indices, List.drop_left]
    exact selectedOf_subset U S
  · intro hdisj x hx1 hx2
    rw [postprocess_indices] at hx1 hx2
    rcases List.mem_append.1 hx1 with hxL | hxsel
    · exact hdisj hxL (keptOf_subset U S x hx2)
    · exact selectedOf_keptOf_disjoint U S hU hxsel hx2
  · rw [postprocess_indices, List.append_assoc]
    exact (selectedOf_append_keptOf_perm U S).append_left L

/-- The sample drawn by `stratified_random_sampling` has exactly `number`
pairwise-distinct valid positions whenever the pool is large enough. -/
theorem stratified_random_sampling_spec (shuffle : List Nat → List Nat)
    (U : List Nat) (number : Nat)
    (hshuffle : (shuffle (List.range U.length)).Perm (List.range U.length))
    (hnum : number ≤ U.length) :
    ∃ s, stratified_random_sampling shuffle U number = some s ∧
      s.length = number ∧ s.Nodup ∧ ∀ p ∈ s, p < U.length := by
  refine ⟨(shuffle (List.range U.length)).take number, ?_, ?_, ?_, ?_⟩
  · rw [stratified_random_sampling, if_pos hnum]
  · rw [List.length_take, hshuffle.length_eq, List.length_range]
    omega
  · exact (hshuffle.nodup_iff.2 (List.nodup_range _)).sublist
      (List.take_sublist number _)
  · intro p hp
    exact List.mem_range.1 (hshuffle.mem_iff.1 (List.mem_of_mem_take hp))

/-- C3: whichever branch of `perform_sampling` runs, provided the external
sampler output `S` is a duplicate-free list of valid positions into the
duplicate-free unlabeled pool (the own sample of the default branch is shown to be
such a list), the round preserves the pool: every index newly appended to the
labeled pool comes from the unlabeled pool, disjointness of the two pools is
preserved, and the multiset of all indices is unchanged. -/
theorem perform_sampling_preserves_pool (strategy : String)
    (shuffle : List Nat → List Nat) (number : Nat)
    (L U S targets sT : List Nat)
    (hshuffle : (shuffle (List.range U.length)).Perm (List.range U.length))
    (hnum : number ≤ U.length)
    (hS : S.Nodup) (hSv : ∀ p ∈ S, p < U.length) (hU : U.Nodup) :
    ∃ r, perform_sampling strategy shuffle number L U S targets sT = some r ∧
      (∀ x ∈ r.1.1.drop L.length, x ∈ U) ∧
      (L.Disjoint U → r.1.1.Disjoint r.1.2) ∧
      (r.1.1 ++ r.1.2).Perm (L ++ U) := by
  have hS2 := hS
  have hSv2 := hSv
  by_cases hal : strategy = "active_learning"
  · refine ⟨(postprocess_indices L U S, targets), ?_, ?_⟩
    · rw [perform_sampling, if_pos hal]
    · exact postprocess_indices_pool L U S hU
  · by_cases hssl : strategy = "semi_supervised"
    · refine ⟨(postprocess_indices L U S,
        (pseudo_label_loop targets (S.zip sT)).1), ?_, ?_⟩
      · rw [perform_sampling, if_neg hal, if_pos hssl]
      · exact postprocess_indices_pool L U S hU
    · obtain ⟨s, hsome, _, _, _⟩ :=
        stratified_random_sampling_spec shuffle U number hshuffle hnum
      refine ⟨(postprocess_indices L U s, targets), ?_, ?_⟩
      · rw [perform_sampling, if_neg hal, if_neg hssl, hsome]
      · exact postprocess_indices_pool L U s hU

/-- Witness for `perform_sampling_preserves_pool` at a concrete input. -/
theorem perform_sampling_preserves_pool_witness :
    ∃ r, perform_sampling "random_sampling" id 1 [9] [5, 6] [1] [] [] = some r ∧
      (∀ x ∈ r.1.1.drop 1, x ∈ [5, 6]) ∧
      ([9].Disjoint [5, 6] → r.1.1.Disjoint r.1.2) ∧
      (r.1.1 ++ r.1.2).Perm ([9] ++ [5, 6]) := by
  have h := perform_sampling_preserves_pool "random_sampling" id 1
    [9] [5, 6] [1] [] [] (by decide) (by decide) (by decide) (by decide)
    (by decide)
  simpa using h

/-- Positional reads through `getElem?` after an update at a distinct position. -/
theorem getD_set_ne (targets : List Nat) {i j : Nat} (a : Nat) (h : i ≠ j) :
    (targets.set i a).getD j 0 = targets.getD j 0 := by
  rw [List.getD_eq_getElem?_getD, List.getD_eq_getElem?_getD,
    List.getElem?_set_ne h]

/-- Positional reads through `getElem?` after an update at the same position. -/
theorem getD_set_self (targets : List Nat) {i : Nat} (a : Nat)
    (h : i < targets.length) : (targets.set i a).getD i 0 = a := by
  rw [List.getD_eq_getElem?_getD, List.getElem?_set_self h]
  rfl

/-- Behaviour of the pseudo-labeling loop when the selected positions are
pairwise distinct: the accuracy flags record, pair by pair, whether the
original target already equalled the prediction; positions outside the
selection are untouched; every selected position ends up holding its
predicted label. -/
theorem pseudo_label_loop_spec (pairs : List (Nat × Nat)) :
    ∀ targets : List Nat, (pairs.map Prod.fst).Nodup →
      (∀ pr ∈ pairs, pr.1 < targets.length) →
      (pseudo_label_loop targets pairs).2
          = pairs.map (fun pr => if targets.getD pr.1 0 = pr.2 then 1 else 0) ∧
      (pseudo_label_loop targets pairs).1.length = targets.length ∧
      (∀ j, j ∉ pairs.map Prod.fst →
        (pseudo_label_loop targets pairs).1.getD j 0 = targets.getD j 0) ∧
      (∀ pr ∈ pairs, (pseudo_label_loop targets pairs).1.getD pr.1 0 = pr.2) := by
  induction pairs with
  | nil =>
    intro targets _ _
    exact ⟨rfl, rfl, fun j _ => rfl, fun pr h => absurd h (List.not_mem_nil pr)⟩
  | cons hd rest ih =>
    intro targets hnd hv
    obtain ⟨j, t⟩ := hd
    rw [List.map_cons, List.nodup_cons] at hnd
    have hj : j < targets.length := hv (j, t) (List.mem_cons_self _ _)
    have hrest : ∀ pr ∈ rest, pr.1 < targets.length :=
      fun pr h => hv pr (List.mem_cons_of_mem _ h)
    by_cases h : targets.getD j 0 = t
    · have hloop : pseudo_label_loop targets ((j, t) :: rest)
          = ((pseudo_label_loop targets rest).1,
             1 :: (pseudo_label_loop targets rest).2) := by
        rw [pseudo_label_loop, if_pos h]
      obtain ⟨e2, elen, eunch, esel⟩ := ih targets hnd.2 hrest
      refine ⟨?_, ?_, ?_, ?_⟩
      · rw [hloop, List.map_cons, if_pos h, e2]
      · rw [hloop]
        exact elen
      · intro j' hj'
        rw [List.map_cons, List.mem_cons] at hj'
        push_neg at hj'
        rw [hloop]
        exact eunch j' hj'.2
      · intro pr hpr
        rcases List.mem_cons.1 hpr with hpr | hpr
        · subst hpr
          rw [hloop]
          show (pseudo_label_loop targets rest).1.getD j 0 = t
          rw [eunch j hnd.1]
          exact h
        · rw [hloop]
          exact esel pr hpr
    · have hloop : pseudo_label_loop targets ((j, t) :: rest)
          = ((pseudo_label_loop (targets.set j t) rest).1,
             0 :: (pseudo_label_loop (targets.set j t) rest).2) := by
        rw [pseudo_label_loop, if_neg h]
      have hrest' : ∀ pr ∈ rest, pr.1 < (targets.set j t).length := by
        intro pr hpr
        rw [List.length_set]
        exact hrest pr hpr
      obtain ⟨e2, elen, eunch, esel⟩ := ih (targets.set j t) hnd.2 hrest'
      refine ⟨?_, ?_, ?_, ?_⟩
      · rw [hloop, List.map_cons, if_neg h, e2]
        show (0 : ℕ) :: List.map
            (fun pr => if (targets.set j t).getD pr.1 0 = pr.2 then 1 else 0) rest
          = (0 : ℕ) :: List.map
            (fun pr => if targets.getD pr.1 0 = pr.2 then 1 else 0) rest
        congr 1
        refine List.map_congr_left ?_
        intro pr hpr
        have hmem : pr.1 ∈ List.map Prod.fst rest :=
          List.mem_map_of_mem Prod.fst hpr
        have hne : j ≠ pr.1 := by
          intro he
          rw [he] at hnd
          exact hnd.1 hmem
        rw [getD_set_ne targets t hne]
      · rw [hloop, elen, List.length_set]
      · intro j' hj'
        rw [List.map_cons, List.mem_cons] at hj'
        push_neg at hj'
        rw [hloop, eunch j' hj'.2, getD_set_ne targets t (Ne.symm hj'.1)]
      · intro pr hpr
        rcases List.mem_cons.1 hpr with hpr | hpr
        · rw [hloop, hpr, eunch j hnd.1, getD_set_self targets t hj]
        · rw [hloop]
          exact esel pr hpr

/-- Counting the 1-flags of an indicator map is counting the satisfied pairs. -/
theorem count_one_map_indicator (P : Nat × Nat → Prop) [DecidablePred P]
    (Z : List (Nat × Nat)) :
    (Z.map (fun pr => if P pr then 1 else 0)).count 1
      = (Z.filter (fun pr => decide (P pr))).length := by
  induction Z with
  | nil => rfl
  | cons hd tl ih =>
    by_cases h : P hd <;>
      simp [List.count_cons, List.filter_cons, h, ih]

/-- C2: in the `semi_supervised` branch of `perform_sampling`, each selected
position of the labeled targets receives its predicted label, every
non-selected position keeps its target, and the printed pseudo-label accuracy
is the fraction of selected samples whose original target already equalled the
prediction. -/
theorem perform_sampling_semi_supervised_correct
    (shuffle : List Nat → List Nat) (number : Nat)
    (L U sI targets sT : List Nat)
    (hnd : sI.Nodup) (hlen : sI.length = sT.length)
    (hv : ∀ j ∈ sI, j < targets.length) :
    ∃ r, perform_sampling "semi_supervised" shuffle number L U sI targets sT
        = some r ∧
      (∀ i < sI.length, r.2.getD (sI.getD i 0) 0 = sT.getD i 0) ∧
      (∀ j, j ∉ sI → r.2.getD j 0 = targets.getD j 0) ∧
      ((pseudo_label_loop targets (sI.zip sT)).2.count 1 : ℚ) / sI.length
        = (((sI.zip sT).filter
            (fun pr => decide (targets.getD pr.1 0 = pr.2))).length : ℚ)
            / sI.length := by
  have hfst : (sI.zip sT).map Prod.fst = sI :=
    List.map_fst_zip sI sT (le_of_eq hlen)
  have hndz : ((sI.zip sT).map Prod.fst).Nodup := by rw [hfst]; exact hnd
  have hvz : ∀ pr ∈ sI.zip sT, pr.1 < targets.length := by
    intro pr hpr
    obtain ⟨a, b⟩ := pr
    exact hv a (List.of_mem_zip hpr).1
  obtain ⟨e2, _, eunch, esel⟩ := pseudo_label_loop_spec (sI.zip sT) targets
    hndz hvz
  refine ⟨(postprocess_indices L U sI,
    (pseudo_label_loop targets (sI.zip sT)).1), ?_, ?_, ?_, ?_⟩
  · have h1 : ("semi_supervised" : String) ≠ "active_learning" := by decide
    rw [perform_sampling, if_neg h1, if_pos rfl]
  · intro i hi
    have hiz : i < (sI.zip sT).length := by
      rw [List.length_zip]
      omega
    have hmem : ((sI.zip sT).get ⟨i, hiz⟩) ∈ sI.zip sT := List.get_mem _ _ hiz
    have hgz : (sI.zip sT).get ⟨i, hiz⟩
        = (sI.get ⟨i, hi⟩, sT.get ⟨i, by omega⟩) := List.getElem_zip
    have h1 := esel _ hmem
    rw [hgz] at h1
    have ei : sI.getD i 0 = sI.get ⟨i, hi⟩ := by
      simp [List.getD_eq_getElem?_getD, List.getElem?_eq_getElem hi]
    have et : sT.getD i 0 = sT.get ⟨i, (hlen ▸ hi : i < sT.length)⟩ := by
      simp [List.getD_eq_getElem?_getD,
        List.getElem?_eq_getElem (hlen ▸ hi : i < sT.length)]
    rw [ei, et]
    exact h1
  · intro j hj
    refine eunch j ?_
    rw [hfst]
    exact hj
  · rw [e2, count_one_map_indicator (fun pr => targets.getD pr.1 0 = pr.2)]

/-- Witness for `perform_sampling_semi_supervised_correct` at a concrete
input. -/
theorem perform_sampling_semi_supervised_correct_witness :
    ∃ r, perform_sampling "semi_supervised" id 1 [9] [5, 6] [1, 0] [7, 3] [3, 8]
        = some r ∧
      (∀ i < ([1, 0] : List Nat).length,
        r.2.getD ([1, 0].getD i 0) 0 = [3, 8].getD i 0) ∧
      (∀ j, j ∉ ([1, 0] : List Nat) → r.2.getD j 0 = [7, 3].getD j 0) ∧
      ((pseudo_label_loop [7, 3] ([1, 0].zip [3, 8])).2.count 1 : ℚ)
          / ([1, 0] : List Nat).length
        = ((([1, 0].zip [3, 8]).filter
            (fun pr => decide ([7, 3].getD pr.1 0 = pr.2))).length : ℚ)
            / ([1, 0] : List Nat).length :=
  perform_sampling_semi_supervised_correct id 1 [9] [5, 6] [1, 0] [7, 3] [3, 8]
    (by decide) (by decide) (by decide)

/-- utils.py lines 154-161, `NTXent.mask_correlated_samples`: a
`2*batch_size × 2*batch_size` boolean matrix of ones, zeroed on the diagonal
(`fill_diagonal_`) and, for each `i < batch_size`, at `(i, batch_size + i)` and
`(batch_size + i, i)`; represented by its entry function. -/
def mask_correlated_samples (batch_size : Nat) (p q : Nat) : Bool :=
  if p = q then false
  else if p < batch_size ∧ q = batch_size + p then false
  else if q < batch_size ∧ p = batch_size + q then false
  else true

/-- utils.py lines 163-181, `NTXent.forward`: row `p` of the logits handed to
the cross-entropy, namely the positive similarity (entry `p` of
`cat(diag(sim, batch_size), diag(sim, -batch_size))`) followed by the negative
similarities of the row `sim[mask]`, the similarity values being abstracted into
a function to ℚ. -/
def NTXent_forward_row (batch_size : Nat) (sim : Nat → Nat → ℚ) (p : Nat) :
    List ℚ :=
  (if p < batch_size then sim p (batch_size + p) else sim p (p - batch_size)) ::
    ((List.range (2 * batch_size)).filter
        (fun q => mask_correlated_samples batch_size p q)).map (sim p)

/-- Within the matrix, the mask is false exactly on the diagonal and the two
`±batch_size` off-diagonals. -/
theorem mask_correlated_samples_eq_false (B p q : Nat) (hp : p < 2 * B)
    (hq : q < 2 * B) :
    mask_correlated_samples B p q = false ↔ (p = q ∨ q = p + B ∨ p = q + B) := by
  rw [mask_correlated_samples]
  split_ifs with h1 h2 h3 <;> simp <;> omega

/-- The mask is symmetric. -/
theorem mask_symm (B : Nat) :
    ∀ p q, mask_correlated_samples B p q = mask_correlated_samples B q p := by
  intro p q
  rw [mask_correlated_samples, mask_correlated_samples]
  split_ifs <;> first | rfl | (exfalso; omega)

/-- Each row of the matrix has exactly two false entries: the diagonal one and
the one pairing the row with its augmented twin. -/
theorem filter_not_mask_perm (B p : Nat) (hB : 1 ≤ B) (hp : p < 2 * B) :
    ∃ c, c ≠ p ∧ c < 2 * B ∧
      ((List.range (2 * B)).filter
        (fun q => !mask_correlated_samples B p q)).Perm [p, c] := by
  have key : ∀ c : Nat, c ≠ p → c < 2 * B →
      (∀ a, a < 2 * B →
        (mask_correlated_samples B p a = false ↔ (a = p ∨ a = c))) →
      ((List.range (2 * B)).filter
        (fun q => !mask_correlated_samples B p q)).Perm [p, c] := by
    intro c hne hlt hchar
    refine (List.perm_ext_iff_of_nodup ((List.nodup_range _).filter _) ?_).2 ?_
    · simp [Ne.symm hne]
    · intro a
      simp only [List.mem_filter, List.mem_range, Bool.not_eq_true',
        List.mem_cons, List.not_mem_nil, or_false]
      constructor
      · rintro ⟨ha, hm⟩
        exact (hchar a ha).1 hm
      · intro ha
        have ha2 : a < 2 * B := by
          rcases ha with rfl | rfl
          exacts [hp, hlt]
        exact ⟨ha2, (hchar a ha2).2 ha⟩
  rcases Nat.lt_or_ge p B with hpB | hpB
  · refine ⟨p + B, by omega, by omega,
      key (p + B) (by omega) (by omega) ?_⟩
    intro a ha
    rw [mask_correlated_samples_eq_false B p a hp ha]
    omega
  · refine ⟨p - B, by omega, by omega,
      key (p - B) (by omega) (by omega) ?_⟩
    intro a ha
    rw [mask_correlated_samples_eq_false B p a hp ha]
    omega

/-- Each row of the matrix has exactly `2*B - 2` true entries. -/
theorem mask_row_count (B p : Nat) (hB : 1 ≤ B) (hp : p < 2 * B) :
    ((List.range (2 * B)).filter
        (fun q => mask_correlated_samples B p q)).length = 2 * B - 2 := by
  obtain ⟨c, hcne, hclt, hperm⟩ := filter_not_mask_perm B p hB hp
  have htot := (List.filter_append_perm
      (fun q => mask_correlated_samples B p q) (List.range (2 * B))).length_eq
  rw [List.length_append, List.length_range] at htot
  have h2 : ((List.range (2 * B)).filter
      (fun q => !mask_correlated_samples B p q)).length = 2 := by
    rw [hperm.length_eq]
    rfl
  omega

/-- C4: for every batch size at least 1, the NT-Xent mask is symmetric and is
false exactly when `p = q` or `|p - q| = batch_size`, so within the
`2B × 2B` matrix every row holds exactly `2B - 2` true entries, and every row
of the logits built by `NTXent.forward` pairs one positive similarity with
`2B - 2` negative similarities. -/
theorem mask_correlated_samples_correct (B : Nat) (hB : 1 ≤ B) :
    (∀ p q, mask_correlated_samples B p q = mask_correlated_samples B q p) ∧
    (∀ p < 2 * B, ∀ q < 2 * B,
      (mask_correlated_samples B p q = false ↔
        (p = q ∨ q = p + B ∨ p = q + B))) ∧
    (∀ p < 2 * B, ((List.range (2 * B)).filter
        (fun q => mask_correlated_samples B p q)).length = 2 * B - 2) ∧
    (∀ (sim : Nat → Nat → ℚ), ∀ p < 2 * B,
      (NTXent_forward_row B sim p).length = 1 + (2 * B - 2)) := by
  refine ⟨mask_symm B, ?_, ?_, ?_⟩
  · intro p hp q hq
    exact mask_correlated_samples_eq_false B p q hp hq
  · intro p hp
    exact mask_row_count B p hB hp
  · intro sim p hp
    rw [NTXent_forward_row, List.length_cons, List.length_map,
      mask_row_count B p hB hp]
    omega

/-- Witness for `mask_correlated_samples_correct` at batch size 2. -/
theorem mask_correlated_samples_correct_witness :
    (∀ p q, mask_correlated_samples 2 p q = mask_correlated_samples 2 q p) ∧
    (∀ p < 2 * 2, ∀ q < 2 * 2,
      (mask_correlated_samples 2 p q = false ↔
        (p = q ∨ q = p + 2 ∨ p = q + 2))) ∧
    (∀ p < 2 * 2, ((List.range (2 * 2)).filter
        (fun q => mask_correlated_samples 2 p q)).length = 2 * 2 - 2) ∧
    (∀ (sim : Nat → Nat → ℚ), ∀ p < 2 * 2,
      (NTXent_forward_row 2 sim p).length = 1 + (2 * 2 - 2)) :=
  mask_correlated_samples_correct 2 (by decide)

/-- The four architectures constructed by `create_model_optimizer_scheduler`
(utils.py lines 211-225); the model classes themselves are external
collaborators and are modelled by their constructor arguments. -/
inductive Model
  | wideResNet (depth num_classes widen_factor : Nat) (dropout_rate : ℚ)
  | densenet121 (num_classes : Nat)
  | leNet (num_channels num_classes : Nat) (droprate : ℚ) (input_size : Nat)
  | resnet18 (num_classes : Nat)

/-- torch.optim.Adam over the model parameters (utils.py line 235). -/
inductive Optimizer
  | adam

/-- torch.optim.lr_scheduler.StepLR (utils.py line 238). -/
inductive Scheduler
  | stepLR (step_size : Nat) (gamma : ℚ)

/-- The builtin exception raised by the harness (utils.py line 225). -/
inductive PyError
  | notImplementedError

/-- The fields of `args` and `dataset_class` that
`create_model_optimizer_scheduler` consumes. -/
structure ModelArgs where
  arch : String
  layers : Nat
  widen_factor : Nat
  drop_rate : ℚ
  num_classes : Nat
  input_size : Nat

/-- utils.py lines 211-240, `create_model_optimizer_scheduler`: dispatch on
`args.arch`, raising the builtin `NotImplementedError` for any unknown
architecture, then build an Adam optimizer and a StepLR scheduler with
`step_size=50`, `gamma=0.2`. -/
def create_model_optimizer_scheduler (args : ModelArgs) :
    Except PyError (Model × Optimizer × Scheduler) :=
  if args.arch = "wideresnet" then
    .ok (.wideResNet args.layers args.num_classes args.widen_factor
        args.drop_rate, .adam, .stepLR 50 (2 / 10))
  else if args.arch = "densenet" then
    .ok (.densenet121 args.num_classes, .adam, .stepLR 50 (2 / 10))
  else if args.arch = "lenet" then
    .ok (.leNet 3 args.num_classes args.drop_rate args.input_size, .adam,
      .stepLR 50 (2 / 10))
  else if args.arch = "resnet" then
    .ok (.resnet18 args.num_classes, .adam, .stepLR 50 (2 / 10))
  else
    .error .notImplementedError

/-- C5: `create_model_optimizer_scheduler` raises exactly the builtin
`NotImplementedError` (no custom exception class), and does so precisely when
`args.arch` is none of `wideresnet`, `densenet`, `lenet`, `resnet`; for each of
those four values it returns a model, optimizer and scheduler. -/
theorem create_model_optimizer_scheduler_errors (args : ModelArgs) :
    (create_model_optimizer_scheduler args = .error .notImplementedError
      ↔ args.arch ∉ ["wideresnet", "densenet", "lenet", "resnet"]) ∧
    (∀ e, create_model_optimizer_scheduler args = .error e
      → e = PyError.notImplementedError) ∧
    (args.arch ∈ ["wideresnet", "densenet", "lenet", "resnet"] →
      ∃ m o s, create_model_optimizer_scheduler args = .ok (m, o, s)) := by
  rw [create_model_optimizer_scheduler]
  split_ifs with h1 h2 h3 h4
  · refine ⟨?_, ?_, fun _ => ⟨_, _, _, rfl⟩⟩
    · simp [h1]
    · intro e he
      exact absurd he (by simp)
  · refine ⟨?_, ?_, fun _ => ⟨_, _, _, rfl⟩⟩
    · simp [h2]
    · intro e he
      exact absurd he (by simp)
  · refine ⟨?_, ?_, fun _ => ⟨_, _, _, rfl⟩⟩
    · simp [h3]
    · intro e he
      exact absurd he (by simp)
  · refine ⟨?_, ?_, fun _ => ⟨_, _, _, rfl⟩⟩
    · simp [h4]
    · intro e he
      exact absurd he (by simp)
  · refine ⟨?_, ?_, ?_⟩
    · constructor
      · intro _
        simp only [List.mem_cons, List.not_mem_nil, or_false]
        push_neg
        exact ⟨h1, h2, h3, h4⟩
      · intro _
        rfl
    · intro e _
      cases e
      rfl
    · intro hmem
      exfalso
      simp only [List.mem_cons, List.not_mem_nil, or_false] at hmem
      rcases hmem with h | h | h | h
      exacts [h1 h, h2 h, h3 h, h4 h]

/-- Witness for `create_model_optimizer_scheduler_errors` at a concrete
unsupported architecture. -/
theorem create_model_optimizer_scheduler_errors_witness :
    (create_model_optimizer_scheduler ⟨"vgg", 1, 1, 0, 10, 32⟩
        = .error .notImplementedError
      ↔ ("vgg" : String) ∉ ["wideresnet", "densenet", "lenet", "resnet"]) ∧
    (∀ e, create_model_optimizer_scheduler ⟨"vgg", 1, 1, 0, 10, 32⟩ = .error e
      → e = PyError.notImplementedError) ∧
    (("vgg" : String) ∈ ["wideresnet", "densenet", "lenet", "resnet"] →
      ∃ m o s, create_model_optimizer_scheduler ⟨"vgg", 1, 1, 0, 10, 32⟩
        = .ok (m, o, s)) :=
  create_model_optimizer_scheduler_errors ⟨"vgg", 1, 1, 0, 10, 32⟩

/-- data/cifar10_dataset.py line 42:
`self.add_labeled_num = int(len(base_dataset) * self.add_labeled_ratio)`, the
float product modelled in ℚ and the Python `int` conversion as truncation (floor, the
product being nonnegative). -/
def add_labeled_num (base_dataset_len : Nat) ( add_labeled_ratio : ℚ) : Nat :=
  (((base_dataset_len : ℚ) * add_labeled_ratio).floor).toNat

/-- C6: the per-round label budget is the fixed count
`add_labeled_num = int(len(base_dataset) * add_labeled_ratio)`; whenever the
unlabeled pool is at least that large, the default random strategy draws
exactly that many pairwise-distinct valid positions, and the round moves
exactly that many samples from the unlabeled pool to the labeled pool. -/
theorem stratified_random_sampling_budget (base_dataset_len : Nat)
    ( add_labeled_ratio : ℚ) (shuffle : List Nat → List Nat) (L U : List Nat)
    (hshuffle : (shuffle (List.range U.length)).Perm (List.range U.length))
    (hnum : add_labeled_num base_dataset_len add_labeled_ratio ≤ U.length) :
    ∃ s, stratified_random_sampling shuffle U
          (add_labeled_num base_dataset_len add_labeled_ratio) = some s ∧
      s.length = add_labeled_num base_dataset_len add_labeled_ratio ∧
      s.Nodup ∧ (∀ p ∈ s, p < U.length) ∧
      (postprocess_indices L U s).1.length
        = L.length + add_labeled_num base_dataset_len add_labeled_ratio ∧
      (postprocess_indices L U s).2.length
        = U.length - add_labeled_num base_dataset_len add_labeled_ratio := by
  obtain ⟨s, hs, hl, hnd, hvl⟩ := stratified_random_sampling_spec shuffle U
    (add_labeled_num base_dataset_len add_labeled_ratio) hshuffle hnum
  refine ⟨s, hs, hl, hnd, hvl, ?_, ?_⟩
  · rw [postprocess_indices]
    simp only [List.length_append, selectedOf_length U s hnd hvl, hl]
  · rw [postprocess_indices]
    simp only [keptOf_length U s hnd hvl, hl]

/-- Witness for `stratified_random_sampling_budget` at a concrete input. -/
theorem stratified_random_sampling_budget_witness :
    ∃ s, stratified_random_sampling id [4, 5, 6] (add_labeled_num 2 1) = some s ∧
      s.length = add_labeled_num 2 1 ∧
      s.Nodup ∧ (∀ p ∈ s, p < ([4, 5, 6] : List Nat).length) ∧
      (postprocess_indices [9] [4, 5, 6] s).1.length
        = ([9] : List Nat).length + add_labeled_num 2 1 ∧
      (postprocess_indices [9] [4, 5, 6] s).2.length
        = ([4, 5, 6] : List Nat).length - add_labeled_num 2 1 := by
  have hval : add_labeled_num 2 1 = 2 := by
    rw [add_labeled_num, mul_one]
    decide
  exact stratified_random_sampling_budget 2 1 id [9] [4, 5, 6]
    (by decide) (by rw [hval]; decide)

/-- data/cifar10_dataset.py line 36: `remove_classes = np.array([0, 1, 2])`. -/
def remove_classes : List Nat := [0, 1, 2]

/-- data/cifar10_dataset.py lines 38-59, `Cifar10Dataset.get_dataset`,
restricted to its index bookkeeping.  `train_test_split(np.arange(n),
test_size=(1 - labeled_ratio), shuffle=True, stratify=None)` is modelled by an
arbitrary permutation `perm` of `List.range n`, the test (unlabeled) split
taking the first `n_test` entries and the train (labeled) split the rest.  The
labeled split is then restricted to the indices whose target lies outside
`remove_classes` (lines 53-54); the unlabeled split is returned unfiltered. -/
def get_dataset_indices (perm targets : List Nat) (n_test : Nat) :
    List Nat × List Nat :=
  ((perm.drop n_test).filter
      (fun i => decide (targets.getD i 0 ∉ remove_classes)),
   perm.take n_test)

/-- C8: the labeled and unlabeled index lists returned by
`Cifar10Dataset.get_dataset` are disjoint duplicate-free subsets of
`[0, len(base_dataset))`; every labeled index has a target outside
`remove_classes = {0, 1, 2}`; the unlabeled list does not depend on the
targets at all; and the union of the two lists can miss part of the training
set. -/
theorem get_dataset_indices_correct (n : Nat) (perm targets : List Nat)
    (n_test : Nat) (hperm : perm.Perm (List.range n)) :
    ((get_dataset_indices perm targets n_test).1.Disjoint
        (get_dataset_indices perm targets n_test).2) ∧
    (∀ i ∈ (get_dataset_indices perm targets n_test).1, i < n) ∧
    (∀ i ∈ (get_dataset_indices perm targets n_test).2, i < n) ∧
    (get_dataset_indices perm targets n_test).1.Nodup ∧
    (get_dataset_indices perm targets n_test).2.Nodup ∧
    (∀ i ∈ (get_dataset_indices perm targets n_test).1,
      targets.getD i 0 ∉ remove_classes) ∧
    (∀ targets2, (get_dataset_indices perm targets2 n_test).2
        = (get_dataset_indices perm targets n_test).2) ∧
    (∃ n2 perm2 targets2 n_test2 j, perm2.Perm (List.range n2) ∧ j < n2 ∧
        j ∉ (get_dataset_indices perm2 targets2 n_test2).1 ∧
        j ∉ (get_dataset_indices perm2 targets2 n_test2).2) := by
  have hnd : perm.Nodup := hperm.nodup_iff.2 (List.nodup_range n)
  have hndsplit : (perm.take n_test ++ perm.drop n_test).Nodup := by
    rw [List.take_append_drop]
    exact hnd
  obtain ⟨hndtake, hnddrop, hdistake⟩ := List.nodup_append.1 hndsplit
  refine ⟨?_, ?_, ?_, ?_, ?_, ?_, ?_, ?_⟩
  · intro x hx1 hx2
    exact hdistake hx2 (List.mem_of_mem_filter hx1)
  · intro i hi
    have : i ∈ perm :=
      List.mem_of_mem_drop (List.mem_of_mem_filter hi)
    exact List.mem_range.1 (hperm.mem_iff.1 this)
  · intro i hi
    have : i ∈ perm := List.mem_of_mem_take hi
    exact List.mem_range.1 (hperm.mem_iff.1 this)
  · exact hnddrop.filter _
  · exact hndtake
  · intro i hi
    have := (List.mem_filter.1 hi).2
    simpa using this
  · intro targets2
    rfl
  · exact ⟨1, [0], [0], 0, 0, by decide, by decide, by decide, by decide⟩

/-- Witness for `get_dataset_indices_correct` at a concrete input. -/
theorem get_dataset_indices_correct_witness :
    ((get_dataset_indices [2, 0, 1, 3] [0, 9, 9, 9] 2).1.Disjoint
        (get_dataset_indices [2, 0, 1, 3] [0, 9, 9, 9] 2).2) ∧
    (∀ i ∈ (get_dataset_indices [2, 0, 1, 3] [0, 9, 9, 9] 2).1, i < 4) ∧
    (∀ i ∈ (get_dataset_indices [2, 0, 1, 3] [0, 9, 9, 9] 2).2, i < 4) ∧
    (get_dataset_indices [2, 0, 1, 3] [0, 9, 9, 9] 2).1.Nodup ∧
    (get_dataset_indices [2, 0, 1, 3] [0, 9, 9, 9] 2).2.Nodup ∧
    (∀ i ∈ (get_dataset_indices [2, 0, 1, 3] [0, 9, 9, 9] 2).1,
      [0, 9, 9, 9].getD i 0 ∉ remove_classes) ∧
    (∀ targets2, (get_dataset_indices [2, 0, 1, 3] targets2 2).2
        = (get_dataset_indices [2, 0, 1, 3] [0, 9, 9, 9] 2).2) ∧
    (∃ n2 perm2 targets2 n_test2 j, perm2.Perm (List.range n2) ∧ j < n2 ∧
        j ∉ (get_dataset_indices perm2 targets2 n_test2).1 ∧
        j ∉ (get_dataset_indices perm2 targets2 n_test2).2) :=
  get_dataset_indices_correct 4 [2, 0, 1, 3] [0, 9, 9, 9] 2 (by decide)

/-- The contents of a `model_best.pth.tar` checkpoint consumed by
`resume_model`: the stored epoch and the stored model state dict. -/
structure Checkpoint (σ : Type) where
  epoch : Nat
  state_dict : σ

/-- utils.py lines 256-268, `resume_model`: look up
`checkpoint_path/name/model_best.pth.tar` in the file system (modelled as a map
from paths to optional checkpoints); when the file exists, load the stored
epoch into `args.start_epoch` and the stored state dict into the model; when it
does not, print a message and fall through, returning the model unchanged. -/
def resume_model {σ : Type} (fs : String → Option (Checkpoint σ))
    (checkpoint_path name : String) (model : σ) (start_epoch : Nat) :
    σ × Nat :=
  let file := checkpoint_path ++ "/" ++ name ++ "/model_best.pth.tar"
  match fs file with
  | some checkpoint => (checkpoint.state_dict, checkpoint.epoch)
  | none => (model, start_epoch)

/-- C9: when no checkpoint file exists at
`checkpoint_path/name/model_best.pth.tar`, `resume_model` raises nothing,
returns the model unchanged and leaves `args.start_epoch` untouched. -/
theorem resume_model_no_checkpoint {σ : Type}
    (fs : String → Option (Checkpoint σ)) (checkpoint_path name : String)
    (model : σ) (start_epoch : Nat)
    (h : fs (checkpoint_path ++ "/" ++ name ++ "/model_best.pth.tar") = none) :
    resume_model fs checkpoint_path name model start_epoch
      = (model, start_epoch) := by
  rw [resume_model]
  simp only [h]

/-- Witness for `resume_model_no_checkpoint` with an empty file system. -/
theorem resume_model_no_checkpoint_witness :
    (fun _ : String => (none : Option (Checkpoint Nat)))
        ("ckpt" ++ "/" ++ "run" ++ "/model_best.pth.tar") = none ∧
    resume_model (fun _ : String => (none : Option (Checkpoint Nat)))
        "ckpt" "run" 7 3 = (7, 3) :=
  ⟨rfl, resume_model_no_checkpoint (fun _ => none) "ckpt" "run" 7 3 rfl⟩

/-- utils.py lines 32-49, `AverageMeter`: running value, average, sum and count
of a metric, the float values modelled in ℚ. -/
structure AverageMeter where
  val : ℚ
  avg : ℚ
  sum : ℚ
  count : ℕ

/-- Constructor `AverageMeter.__init__` (utils.py lines 33-37): every field starts at 0. -/
def AverageMeter.init : AverageMeter := ⟨0, 0, 0, 0⟩

/-- Method `AverageMeter.reset` (utils.py lines 39-43): every field is reset to 0. -/
def AverageMeter.reset (_ : AverageMeter) : AverageMeter := ⟨0, 0, 0, 0⟩

/-- Method `AverageMeter.update` (utils.py lines 45-49): record the value, accumulate
`val * n` into the sum and `n` into the count, and recompute the average as
`sum / count`. -/
def AverageMeter.update (m : AverageMeter) (v : ℚ) (n : ℕ) : AverageMeter :=
  { val := v
    avg := (m.sum + v * n) / ((m.count + n : ℕ) : ℚ)
    sum := m.sum + v * n
    count := m.count + n }

/-- A finite sequence of `update` calls, applied in order. -/
def applyUpdates (m : AverageMeter) (us : List (ℚ × ℕ)) : AverageMeter :=
  us.foldl (fun acc u => acc.update u.1 u.2) m

/-- Field-by-field description of a sequence of updates from any starting
meter. -/
theorem applyUpdates_fields (us : List (ℚ × ℕ)) :
    ∀ m : AverageMeter,
      (applyUpdates m us).count = m.count + (us.map Prod.snd).sum ∧
      (applyUpdates m us).sum
        = m.sum + (us.map (fun u => u.1 * (u.2 : ℚ))).sum ∧
      (applyUpdates m us).val = (us.map Prod.fst).getLastD m.val ∧
      (us ≠ [] → (applyUpdates m us).avg
          = (applyUpdates m us).sum / ((applyUpdates m us).count : ℚ)) := by
  induction us with
  | nil =>
    intro m
    exact ⟨by simp [applyUpdates], by simp [applyUpdates],
      by simp [applyUpdates], fun h => absurd rfl h⟩
  | cons u rest ih =>
    intro m
    have step : applyUpdates m (u :: rest)
        = applyUpdates (m.update u.1 u.2) rest := rfl
    obtain ⟨hc, hs, hv, ha⟩ := ih (m.update u.1 u.2)
    refine ⟨?_, ?_, ?_, ?_⟩
    · rw [step, hc]
      simp [AverageMeter.update]
      omega
    · rw [step, hs]
      simp [AverageMeter.update]
      ring
    · rw [step, hv, List.map_cons, List.getLastD_cons]
      rfl
    · intro _
      rcases eq_or_ne rest [] with hr | hr
      · subst hr
        rw [step]
        show (m.update u.1 u.2).avg = _
        rfl
      · rw [step]
        exact ha hr

/-- C10: starting from `reset` (or a freshly constructed meter), after any
finite sequence of `update(v, n)` calls with every `n ≥ 1`, `count` is the sum
of the `n`, `sum` is the sum of the `v * n`, `val` is the last `v`, and
`avg = sum / count`; `reset` and `__init__` zero all four fields. -/
theorem averageMeter_invariant (m0 : AverageMeter) (us : List (ℚ × ℕ))
    (hn : ∀ u ∈ us, 1 ≤ u.2) :
    (m0.reset = AverageMeter.init ∧ AverageMeter.init.val = 0 ∧
      AverageMeter.init.avg = 0 ∧ AverageMeter.init.sum = 0 ∧
      AverageMeter.init.count = 0) ∧
    (applyUpdates m0.reset us).count = (us.map Prod.snd).sum ∧
    (applyUpdates m0.reset us).sum
      = (us.map (fun u => u.1 * (u.2 : ℚ))).sum ∧
    (applyUpdates m0.reset us).val = (us.map Prod.fst).getLastD 0 ∧
    (applyUpdates m0.reset us).avg
      = (applyUpdates m0.reset us).sum
          / ((applyUpdates m0.reset us).count : ℚ) := by
  have hn2 := hn
  obtain ⟨hc, hs, hv, ha⟩ := applyUpdates_fields us m0.reset
  refine ⟨⟨rfl, rfl, rfl, rfl, rfl⟩, ?_, ?_, ?_, ?_⟩
  · rw [hc]
    show 0 + _ = _
    rw [Nat.zero_add]
  · rw [hs]
    show (0 : ℚ) + _ = _
    rw [zero_add]
  · rw [hv]
    rfl
  · rcases eq_or_ne us [] with hu | hu
    · subst hu
      show (0 : ℚ) = (0 : ℚ) / ((0 : ℕ) : ℚ)
      simp
    · exact ha hu

/-- Witness for `averageMeter_invariant` at a concrete update sequence. -/
theorem averageMeter_invariant_witness :
    (AverageMeter.init.reset = AverageMeter.init ∧
      AverageMeter.init.val = 0 ∧ AverageMeter.init.avg = 0 ∧
      AverageMeter.init.sum = 0 ∧ AverageMeter.init.count = 0) ∧
    (applyUpdates AverageMeter.init.reset [(3, 2), (5, 1)]).count
      = ([((3 : ℚ), 2), (5, 1)].map Prod.snd).sum ∧
    (applyUpdates AverageMeter.init.reset [(3, 2), (5, 1)]).sum
      = ([((3 : ℚ), 2), (5, 1)].map (fun u => u.1 * (u.2 : ℚ))).sum ∧
    (applyUpdates AverageMeter.init.reset [(3, 2), (5, 1)]).val
      = ([((3 : ℚ), 2), (5, 1)].map Prod.fst).getLastD 0 ∧
    (applyUpdates AverageMeter.init.reset [(3, 2), (5, 1)]).avg
      = (applyUpdates AverageMeter.init.reset [(3, 2), (5, 1)]).sum
          / ((applyUpdates AverageMeter.init.reset [(3, 2), (5, 1)]).count : ℚ) :=
  averageMeter_invariant AverageMeter.init [(3, 2), (5, 1)] (by decide)

end MedALSSL
